import Mathlib

/-!
Verification of the parsing / fuzzy-resolution / validation core of the
aur-helper repository (src/aur-helper.py), shallowly embedded in Lean 4.

Conventions of the embedding:
* Python strings are Lean `String`s; the line- and token-level algorithms
  work on the underlying `List Char`.
* Python floats (difflib similarity scores, the 0.3 cutoff) are modelled as
  exact rationals `ℚ`.
* External effects (subprocess execution, logging, prompts, backups) are
  modelled by passing the outcome of each external command as an explicit
  argument; the embedded functions return the success flag together with
  the list of command lines issued, exactly in issue order.
* `subprocess.run(..., text=True)` delivers universal-newline text, so the
  line splitter only has to handle the `'\n'` separator.
-/

namespace AurHelper

open scoped List

/-- The whitespace test used by Python `str.strip` / `str.split()`:
space, tab, newline, carriage return, vertical tab, form feed. -/
def isPySpace (c : Char) : Bool :=
  c = ' ' || c = '\t' || c = '\n' || c = '\r' || c = Char.ofNat 11 || c = Char.ofNat 12

/-- `str.strip()`: drop whitespace from both ends. -/
def pyStrip (l : List Char) : List Char :=
  (l.dropWhile isPySpace).rdropWhile isPySpace

/-- Accumulator pass of `str.split()` (split on whitespace runs, no empty
tokens). `acc` holds the current token reversed. -/
def splitWsAux : List Char → List Char → List (List Char)
  | [], acc => if acc = [] then [] else [acc.reverse]
  | c :: cs, acc =>
    if isPySpace c then
      if acc = [] then splitWsAux cs [] else acc.reverse :: splitWsAux cs []
    else splitWsAux cs (c :: acc)

/-- `str.split()` with no separator argument. -/
def pySplitWs (l : List Char) : List (List Char) :=
  splitWsAux l []

/-- `str.startswith(c)` for a one-character prefix. -/
def startsWithChar (c : Char) : List Char → Bool
  | [] => false
  | d :: _ => d = c

/-- Substring test `c in s` for a one-character needle. -/
def containsChar (c : Char) (l : List Char) : Bool :=
  l.any (fun d => d = c)

/-- `str.split(sep, 1)` for a one-character separator, returning the parts
before and after the first occurrence (the whole string and `[]` when the
separator is absent; all call sites guard on presence first). -/
def splitFirstAux (sep : Char) : List Char → List Char → List Char × List Char
  | [], acc => (acc.reverse, [])
  | c :: cs, acc => if c = sep then (acc.reverse, cs) else splitFirstAux sep cs (c :: acc)

def splitFirst (sep : Char) (l : List Char) : List Char × List Char :=
  splitFirstAux sep l []

/-- `str.splitlines()` restricted to the `'\n'` separator (the only one that
can occur in universal-newline subprocess output): no trailing empty line
for a trailing newline, empty list for the empty string. -/
def splitlinesAux : List Char → List Char → List (List Char)
  | [], acc => if acc = [] then [] else [acc.reverse]
  | c :: cs, acc =>
    if c = '\n' then acc.reverse :: splitlinesAux cs [] else splitlinesAux cs (c :: acc)

def pySplitlines (s : String) : List (List Char) :=
  splitlinesAux s.data []

/-! ## Package-name validation (AURHelper.validate_package_name) -/

/-- The character class `[a-zA-Z0-9]` of the validation regex. -/
def isWordStart (c : Char) : Bool :=
  ('a' ≤ c && c ≤ 'z') || ('A' ≤ c && c ≤ 'Z') || ('0' ≤ c && c ≤ '9')

/-- The character class `[a-zA-Z0-9@._+-]` of the validation regex. -/
def isWordCont (c : Char) : Bool :=
  isWordStart c || c = '@' || c = '.' || c = '_' || c = '+' || c = '-'

/-- One full match of `[a-zA-Z0-9][a-zA-Z0-9@._+-]*` against the whole list. -/
def matchCore : List Char → Bool
  | [] => false
  | c :: cs => isWordStart c && cs.all isWordCont

/-- CPython `re.match` with the anchored pattern
`^[a-zA-Z0-9][a-zA-Z0-9@._+-]*$`: without `re.MULTILINE`, `$` matches at the
end of the string or just before a newline at the end of the string, so the
pattern also accepts a body match followed by one final `'\n'`. -/
def reFullMatchDollar (l : List Char) : Bool :=
  matchCore l || (decide (l.getLast? = some '\n') && matchCore l.dropLast)

/-- `AURHelper.validate_package_name`:
`bool(re.match(pattern, package)) and len(package) <= 255`. -/
def validate_package_name (package : String) : Bool :=
  reFullMatchDollar package.data && decide (package.length ≤ 255)

/-! ## Search-output parsing (the loop body of AURHelper.search_packages) -/

structure PackageRecord where
  name : String
  repo : String
  version : String
  description : String
deriving DecidableEq, Repr

/-- The line-scanning loop of `AURHelper.search_packages` on the raw lines.
Mirrors the Python loop body: the current line is stripped, tested for `'/'`
and (vacuously, since it was just stripped) for a leading space, split on
whitespace; a line with at least two tokens whose first token contains `'/'`
yields one record, with the description taken from the next raw line when
that raw line starts with a space.  The dead `else "unknown"` branch of the
Python version expression is kept as written. -/
def parseLines : List (List Char) → List PackageRecord
  | [] => []
  | l :: rest =>
    let line := pyStrip l
    let recs :=
      if containsChar '/' line && !(startsWithChar ' ' line) then
        let parts := pySplitWs line
        if 2 ≤ parts.length then
          let repoPackage := parts.headD []
          let version := if 1 < parts.length then parts.getD 1 [] else "unknown".data
          if containsChar '/' repoPackage then
            let rn := splitFirst '/' repoPackage
            let description :=
              match rest with
              | [] => []
              | next :: _ => if startsWithChar ' ' next then pyStrip next else []
            [⟨⟨rn.2⟩, ⟨rn.1⟩, ⟨version⟩, ⟨description⟩⟩]
          else []
        else []
      else []
    recs ++ parseLines rest

/-- `parseSearchOutput` of the spec: the parsing part of
`AURHelper.search_packages` applied to the text of a search command. -/
def parseSearchOutput (s : String) : List PackageRecord :=
  parseLines (pySplitlines s)

/-! ## Command runner (AURHelper.run_command) -/

/-- Outcome of the underlying `subprocess.run` call, passed in explicitly:
normal completion with an exit code and captured text, expiry of the
300-second timeout, or any other raised exception with its message. -/
inductive ProcOutcome where
  | completed (returncode : Int) (stdout : String)
  | timedOut
  | raised (msg : String)
deriving DecidableEq

/-- `AURHelper.run_command` as a function of the subprocess outcome.
Exit code 0 is the sole success criterion; captured output is stripped;
`subprocess.TimeoutExpired` yields `(False, "Command timed out")`; any other
exception yields `(False, str(e))`. -/
def run_command (_cmd : String) (captureOutput : Bool) (outcome : ProcOutcome) :
    Bool × String :=
  match outcome with
  | .completed rc out =>
    if captureOutput then (decide (rc = 0), ⟨pyStrip out.data⟩)
    else (decide (rc = 0), "")
  | .timedOut => (false, "Command timed out")
  | .raised msg => (false, msg)

/-! ## Package removal (AURHelper.remove_package) -/

/-- `AURHelper.remove_package`, with the outcomes of the two possible
external commands passed in (`removeOk` for `sudo pacman -Rns`, `cleanOk`
for `sudo pacman -Sc`).  Returns the reported success flag together with
the external command lines issued, in order.  Backup creation and printing
are I/O and carry no data into the result. -/
def remove_package (package : String) (installedPackages : List String)
    (mode : String) (autoConfirm : Bool) (removeOk cleanOk : Bool) :
    Bool × List String :=
  if !(validate_package_name package) then (false, [])
  else if !(installedPackages.contains package) then (false, [])
  else if mode = "simple" || mode = "full" || mode = "purge" then
    let removeCmd :=
      "sudo pacman -Rns " ++ package ++ (if autoConfirm then " --noconfirm" else "")
    if removeOk then
      if mode = "purge" then
        let cleanCmd := "sudo pacman -Sc" ++ (if autoConfirm then " --noconfirm" else "")
        -- cleanOk only selects which message is printed; it does not
        -- influence the returned success flag.
        (true, [removeCmd, cleanCmd])
      else (true, [removeCmd])
    else (false, [removeCmd])
  else (false, [])

/-! ## Fuzzy resolver (the difflib pipeline used by
AURHelper.search_similar_interactive)

The candidate list is de-duplicated with `dict.fromkeys` and handed to
CPython `difflib.get_close_matches`.  The similarity is
`SequenceMatcher.ratio()`: twice the total size of the recursively computed
longest matching blocks divided by the sum of the lengths.  Junk handling
(`autojunk`), which only activates for a second sequence of length ≥ 200,
is not modelled; scores and cutoffs are exact rationals. -/

/-- Length of the longest common prefix of two character lists. -/
def lcp : List Char → List Char → Nat
  | a :: as, b :: bs => if a = b then lcp as bs + 1 else 0
  | _, _ => 0

/-- `SequenceMatcher.find_longest_match` over whole sequences (no junk):
the triple `(i, j, k)` with `a[i:i+k] = b[j:j+k]`, `k` maximal, and among
maximal blocks the smallest `i`, then the smallest `j` — obtained here by
scanning all start pairs in increasing `(i, j)` order and keeping the first
strictly longer match. -/
def findLongestMatch (a b : List Char) : Nat × Nat × Nat :=
  ((List.range (a.length + 1)).flatMap
    (fun i => (List.range (b.length + 1)).map (fun j => (i, j)))).foldl
    (fun best p =>
      let k := lcp (a.drop p.1) (b.drop p.2)
      if best.2.2 < k then (p.1, p.2, k) else best)
    (0, 0, 0)

/-- The divide-and-conquer of `SequenceMatcher.get_matching_blocks`, summed:
total number of matched characters.  The first argument of the recursion
strictly shrinks at every call, so the recursion depth is at most
`a.length`; `fuel` is initialised to exactly that bound
(`rMatchesAux_fuel_irrelevant` below shows the bound is immaterial). -/
def rMatchesAux : Nat → List Char → List Char → Nat
  | 0, _, _ => 0
  | fuel + 1, a, b =>
    let r := findLongestMatch a b
    if r.2.2 = 0 then 0
    else
      rMatchesAux fuel (a.take r.1) (b.take r.2.1) + r.2.2 +
        rMatchesAux fuel (a.drop (r.1 + r.2.2)) (b.drop (r.2.1 + r.2.2))

def rMatches (a b : List Char) : Nat :=
  rMatchesAux a.length a b

/-- `SequenceMatcher.ratio()` (CPython `_calculate_ratio`): `2M / (la+lb)`,
and `1` for two empty sequences. -/
def similarity (a b : List Char) : ℚ :=
  if a.length + b.length = 0 then 1
  else (2 * (rMatches a b : ℚ)) / ((a.length : ℚ) + (b.length : ℚ))

/-- Python tuple comparison `(score₂, name₂) < (score₁, name₁)` as used by
`heapq.nlargest` on `(ratio, name)` pairs: lexicographic on the score and
then on the name (code-point order, which is the `String` order). -/
def pairGt (u v : ℚ × String) : Bool :=
  decide (v.1 < u.1) || (decide (v.1 = u.1) && decide (v.2 < u.2))

/-- Insert into a descending-sorted list, after any element it does not
strictly exceed (the placement a stable descending sort produces). -/
def insertDesc (x : ℚ × String) : List (ℚ × String) → List (ℚ × String)
  | [] => [x]
  | y :: ys => if pairGt x y then x :: y :: ys else y :: insertDesc x ys

/-- Stable descending sort by Python tuple order: the ordering
`heapq.nlargest` (documented as `sorted(iterable, reverse=True)[:n]`)
applies before truncation. -/
def sortDesc (l : List (ℚ × String)) : List (ℚ × String) :=
  l.foldl (fun acc x => insertDesc x acc) []

/-- `difflib.get_close_matches(word, possibilities, n, cutoff)`:
keep the possibilities whose similarity to `word` reaches the cutoff (the
`real_quick_ratio`/`quick_ratio` pre-tests are upper bounds of `ratio`, so
the chain of three tests is equivalent to the final `ratio` test), pair each
with its score in input order, take the `n` largest pairs in tuple order,
return the names. -/
def get_close_matches (word : String) (possibilities : List String)
    (n : Nat) (cutoff : ℚ) : List String :=
  let result :=
    (possibilities.filter (fun x => decide (cutoff ≤ similarity x.data word.data))).map
      (fun x => (similarity x.data word.data, x))
  ((sortDesc result).take n).map Prod.snd

/-- `dict.fromkeys` de-duplication: keep the first occurrence of each name,
in order.  `seen` accumulates the names already emitted. -/
def dedupAux (seen : List String) : List String → List String
  | [] => []
  | x :: xs =>
    if x ∈ seen then dedupAux seen xs else x :: dedupAux (x :: seen) xs

def dedupFirstSeen (l : List String) : List String :=
  dedupAux [] l

/-- The resolver core of `AURHelper.search_similar_interactive` (lines
326–332): de-duplicate the candidate names, then run
`get_close_matches(query, unique_names, n=max_search_results,
cutoff=search_cutoff)`. -/
def resolve (query : String) (candidates : List String) (n : Nat) (cutoff : ℚ) :
    List String :=
  get_close_matches query (dedupFirstSeen candidates) n cutoff

/-- The acceptance set exactly as claim C7 words it: the strings that start
with an alphanumeric character, continue with any run of alphanumerics and
`@ . _ + -`, and have total length at most 255.  This definition follows the
claim's words (for comparison with `validate_package_name`, which embeds the
code). -/
def claimedNameOk (s : String) : Bool :=
  (match s.data with
   | [] => false
   | c :: cs => isWordStart c && cs.all isWordCont) && decide (s.length ≤ 255)

/-! ## Supporting lemmas -/

/-- `dropWhile` never leaves a satisfying element at the head. -/
theorem dropWhile_head_not (p : Char → Bool) :
    ∀ (l : List Char) (c : Char) (rest : List Char),
      l.dropWhile p = c :: rest → p c = false := by
  intro l
  induction l with
  | nil => intro c rest h; simp [List.dropWhile] at h
  | cons a as ih =>
    intro c rest h
    by_cases ha : p a
    · exact ih c rest (by simpa [List.dropWhile, ha] using h)
    · rw [List.dropWhile_cons_of_neg (by simpa using ha)] at h
      cases h
      simpa using ha

/-- A stripped line can never start with a space: the `line.startswith(" ")`
test in `search_packages` runs on the output of `line.strip()` and is
therefore always false. -/
theorem startsWithChar_space_pyStrip (l : List Char) :
    startsWithChar ' ' (pyStrip l) = false := by
  rcases h : pyStrip l with _ | ⟨c, rest⟩
  · rfl
  · have hpre : pyStrip l <+: l.dropWhile isPySpace := by
      unfold pyStrip
      exact List.rdropWhile_prefix _ _
    rw [h] at hpre
    obtain ⟨tail, htail⟩ := hpre
    have hc : isPySpace c = false :=
      dropWhile_head_not isPySpace l c (rest ++ tail) (by
        rw [← htail]; simp)
    have : c ≠ ' ' := by
      intro hc'
      rw [hc'] at hc
      simp [isPySpace] at hc
    simpa [startsWithChar] using this

/-- Each scanned line contributes at most one record. -/
theorem parseLines_length_le (ls : List (List Char)) :
    (parseLines ls).length ≤ ls.length := by
  induction ls with
  | nil => simp [parseLines]
  | cons l rest ih =>
    simp only [parseLines, List.length_append, List.length_cons]
    split
    · split
      · split
        · simp only [List.length_cons, List.length_nil]; omega
        · simp only [List.length_nil]; omega
      · simp only [List.length_nil]; omega
    · simp only [List.length_nil]; omega

/-! ## C9: totality and best-effort parsing -/

/-- C9: `parseSearchOutput` is a total function (it is a Lean `def`, hence
defined on every input string); it yields at most one record per line, and
malformed inputs — empty input, lines without `/`, header lines with a
single token — produce an empty or partial result instead of a failure:
a malformed line does not prevent later lines from being parsed. -/
theorem c9_parse_total_best_effort :
    (∀ s : String, (parseSearchOutput s).length ≤ (pySplitlines s).length) ∧
    parseSearchOutput "" = [] ∧
    parseSearchOutput "no slash here" = [] ∧
    parseSearchOutput "core/onlyname" = [] ∧
    parseSearchOutput "core/onlyname\nextra/firefox 115.0-1" =
      [⟨"firefox", "extra", "115.0-1", ""⟩] := by
  refine ⟨fun s => parseLines_length_le _, ?_, ?_, ?_, ?_⟩ <;> decide

/-! ## C1: the indentation test of the header predicate is dead code -/

/-- C1 (failing input for the claim): the second raw line of this input is
indented and contains `/`, and the claim (with the spec) says it must not be
parsed as a header line; but `search_packages` strips the line before
testing `startswith(" ")`, so the indented line nevertheless produces a
second record. -/
theorem c1_indented_header_line_parsed :
    startsWithChar ' ' "    extra/pkg 2.0".data = true ∧
    parseSearchOutput "core/firefox 1.0-1\n    extra/pkg 2.0" =
      [⟨"firefox", "core", "1.0-1", "extra/pkg 2.0"⟩,
        ⟨"pkg", "extra", "2.0", ""⟩] := by
  constructor <;> decide

/-! ## C2: one-token header lines are skipped, not given version "unknown" -/

/-- C2 (counterexample): `"core/firefox"` is a header line (it contains `/`)
whose first whitespace token contains `/` and which has no second token; the
claim says a record with version `"unknown"` is produced, but the code's
`len(parts) >= 2` guard skips the line, so no record is produced. -/
theorem c2_counterexample_single_token_header :
    parseSearchOutput "core/firefox" = [] := by decide

/-- C2 (amended): for a recognised single header line, a record is produced
exactly when the line splits into at least two whitespace tokens and the
first token contains `/`; the version is then the second token.  The three
cases are exhaustive: at most one token yields nothing (so the `"unknown"`
fallback of the version expression is unreachable), at least two tokens
with `/` in the first yields exactly the one record, and at least two
tokens without `/` in the first also yields nothing. -/
theorem c2_amended_record_requires_second_token (l : List Char)
    (hslash : containsChar '/' (pyStrip l) = true) :
    ((pySplitWs (pyStrip l)).length ≤ 1 → parseLines [l] = []) ∧
    (2 ≤ (pySplitWs (pyStrip l)).length →
      containsChar '/' ((pySplitWs (pyStrip l)).headD []) = true →
      parseLines [l] =
        [⟨⟨(splitFirst '/' ((pySplitWs (pyStrip l)).headD [])).2⟩,
          ⟨(splitFirst '/' ((pySplitWs (pyStrip l)).headD [])).1⟩,
          ⟨(pySplitWs (pyStrip l)).getD 1 []⟩, ⟨[]⟩⟩]) ∧
    (2 ≤ (pySplitWs (pyStrip l)).length →
      containsChar '/' ((pySplitWs (pyStrip l)).headD []) = false →
      parseLines [l] = []) := by
  have hsp := startsWithChar_space_pyStrip l
  refine ⟨?_, ?_, ?_⟩
  · intro hlen
    simp [parseLines, hslash, hsp, show ¬ 2 ≤ (pySplitWs (pyStrip l)).length by omega]
  · intro hlen hslash2
    simp only [List.headD_eq_head?_getD] at hslash2
    simp [parseLines, hslash, hsp, hlen, hslash2,
      show 1 < (pySplitWs (pyStrip l)).length by omega]
  · intro hlen hslash2
    simp only [List.headD_eq_head?_getD] at hslash2
    simp [parseLines, hslash, hsp, hlen, hslash2]

/-- C2 (amended, witness at a concrete two-token header line). -/
theorem c2_amended_witness :
    parseLines ["core/firefox 1.0".data] = [⟨"firefox", "core", "1.0", ""⟩] := by
  have h :=
    (c2_amended_record_requires_second_token "core/firefox 1.0".data (by decide)).2.1
      (by decide) (by decide)
  exact h.trans (by decide)

/-! ## C3: the actual remove-mode command sequences -/

/-- C3 (counterexample): mode `"full"` issues exactly the same commands as
mode `"simple"` (there is no orphan-sweep phase), and mode `"purge"` on an
installed package issues two command phases, not three. -/
theorem c3_counterexample_remove_modes :
    remove_package "firefox" ["firefox"] "full" false true true =
      remove_package "firefox" ["firefox"] "simple" false true true ∧
    (remove_package "firefox" ["firefox"] "purge" false true true).2 =
      ["sudo pacman -Rns firefox", "sudo pacman -Sc"] ∧
    ((remove_package "firefox" ["firefox"] "purge" false true true).2).length ≠ 3 := by
  refine ⟨?_, ?_, ?_⟩ <;> decide

/-- C3 (amended): all three modes issue the same mandatory removal command
`sudo pacman -Rns <package>`; `"full"` behaves identically to `"simple"`,
and `"purge"` on an installed package runs exactly two phases in order —
the removal, then (only if the removal succeeded) the cache clean
`sudo pacman -Sc`.  No mode sweeps orphaned dependencies. -/
theorem c3_amended_remove_modes (package : String) (installed : List String)
    (ac removeOk cleanOk : Bool) :
    (remove_package package installed "full" ac removeOk cleanOk =
      remove_package package installed "simple" ac removeOk cleanOk) ∧
    (validate_package_name package = true → installed.contains package = true →
      (remove_package package installed "purge" ac removeOk cleanOk).2 =
        if removeOk then
          ["sudo pacman -Rns " ++ package ++ (if ac then " --noconfirm" else ""),
            "sudo pacman -Sc" ++ (if ac then " --noconfirm" else "")]
        else ["sudo pacman -Rns " ++ package ++ (if ac then " --noconfirm" else "")]) := by
  constructor
  · cases removeOk <;> simp [remove_package]
  · intro hv hi
    have hi' : package ∈ installed := by simpa using hi
    cases removeOk <;> simp [remove_package, hv, hi']

/-- C3 (amended, witness): purge on an installed package with both phases
succeeding issues exactly the removal and the cache clean. -/
theorem c3_amended_witness :
    (remove_package "firefox" ["firefox"] "purge" true true false).2 =
      ["sudo pacman -Rns firefox --noconfirm", "sudo pacman -Sc --noconfirm"] := by
  have h := (c3_amended_remove_modes "firefox" ["firefox"] true true false).2
    (by decide) (by decide)
  exact h.trans (by decide)

/-! ## C6: purge success depends only on the removal phase -/

/-- C6: for mode `"purge"` on a valid, installed package, the reported
success flag equals the outcome of the mandatory removal phase, whatever
the outcome of the cache-clean phase. -/
theorem c6_purge_success_iff_remove_ok (package : String) (installed : List String)
    (ac removeOk cleanOk : Bool)
    (hv : validate_package_name package = true)
    (hi : installed.contains package = true) :
    (remove_package package installed "purge" ac removeOk cleanOk).1 = removeOk := by
  have hi' : package ∈ installed := by simpa using hi
  cases removeOk <;> simp [remove_package, hv, hi']

/-- C6 (witness): cache clean fails, overall result still reports success. -/
theorem c6_purge_success_witness :
    (remove_package "firefox" ["firefox"] "purge" false true false).1 = true :=
  c6_purge_success_iff_remove_ok "firefox" ["firefox"] false true false
    (by decide) (by decide)

/-! ## C8: result of a timed-out command -/

/-- C8: whenever the external command hits the 300-second timeout
(`subprocess.TimeoutExpired`), `run_command` returns failure with exactly
the text `"Command timed out"`, for any command line and either capture
mode. -/
theorem c8_timeout_result (cmd : String) (captureOutput : Bool) :
    run_command cmd captureOutput ProcOutcome.timedOut =
      (false, "Command timed out") := rfl

/-! ## C7 / C10: the validation regex and the trailing-newline quirk -/

theorem string_mk_length (l : List Char) : (String.mk l).length = l.length := rfl

theorem claimedNameOk_eq (s : String) :
    claimedNameOk s = (matchCore s.data && decide (s.length ≤ 255)) := rfl

/-- A list containing a space never matches the pattern core: the space is
in neither character class. -/
theorem matchCore_space {l : List Char} (h : ' ' ∈ l) : matchCore l = false := by
  cases l with
  | nil => cases h
  | cons c cs =>
    by_cases hc : c = ' '
    · subst hc
      simp [matchCore, isWordStart]
    · have h2 : ' ' ∈ cs := by
        rcases List.mem_cons.mp h with h' | h'
        · exact absurd h'.symm hc
        · exact h'
      cases hall : cs.all isWordCont with
      | false => simp [matchCore, hall]
      | true =>
        have := List.all_eq_true.mp hall ' ' h2
        simp [isWordCont, isWordStart] at this

theorem validate_space {s : String} (h : ' ' ∈ s.data) :
    validate_package_name s = false := by
  have h1 : matchCore s.data = false := matchCore_space h
  rcases hlast : s.data.getLast? with _ | c
  · simp [validate_package_name, reFullMatchDollar, h1, hlast]
  · by_cases hnl : c = '\n'
    · subst hnl
      have hne : s.data ≠ [] := by
        intro h0; rw [h0] at hlast; simp at hlast
      have hdec : s.data.dropLast ++ [s.data.getLast hne] = s.data :=
        List.dropLast_concat_getLast hne
      have hlastval : s.data.getLast hne = '\n' := by
        have := List.getLast?_eq_getLast s.data hne
        rw [hlast] at this
        exact (Option.some.injEq _ _ ▸ this).symm ▸ rfl
      have h2 : ' ' ∈ s.data.dropLast := by
        rw [← hdec] at h
        rcases List.mem_append.mp h with h' | h'
        · exact h'
        · rw [hlastval] at h'
          simp at h'
      simp [validate_package_name, reFullMatchDollar, h1, matchCore_space h2]
    · simp [validate_package_name, reFullMatchDollar, h1, hlast, hnl]

/-- C7 (counterexample): `"firefox\n"` is accepted by the code but is not in
the set the claim describes — its final character is a newline, which is in
neither character class of the pattern. -/
theorem c7_counterexample_trailing_newline :
    validate_package_name "firefox\n" = true ∧ claimedNameOk "firefox\n" = false := by
  constructor <;> decide

set_option maxRecDepth 8192 in
/-- C7 (amended): validation accepts exactly the strings of the claimed set
together with those obtained from a claimed-set string by appending one
final newline while staying within the 255-character cap (`$` of the
anchored pattern also matches just before a final newline); all example
names of the claim behave as stated, and every name containing a space is
rejected. -/
theorem c7_amended_validation_characterisation :
    (∀ s : String, validate_package_name s = true ↔
      (claimedNameOk s = true ∨
        (s.data.getLast? = some '\n' ∧
          claimedNameOk (String.mk s.data.dropLast) = true ∧ s.length ≤ 255))) ∧
    validate_package_name "firefox" = true ∧
    validate_package_name "lib32-glibc" = true ∧
    validate_package_name "a" = true ∧
    validate_package_name "-bad" = false ∧
    validate_package_name "" = false ∧
    validate_package_name (String.mk (List.replicate 256 'a')) = false ∧
    (∀ s : String, ' ' ∈ s.data → validate_package_name s = false) := by
  refine ⟨?_, by decide, by decide, by decide, by decide, by decide, by decide,
    fun s h => validate_space h⟩
  intro s
  have hdl : (String.mk s.data.dropLast).length ≤ s.length := by
    rw [string_mk_length]
    have := List.length_dropLast s.data
    have h2 : s.length = s.data.length := rfl
    omega
  constructor
  · intro h
    simp only [validate_package_name, reFullMatchDollar, Bool.and_eq_true, Bool.or_eq_true,
      decide_eq_true_eq] at h
    obtain ⟨hm, hlen'⟩ := h
    rcases hm with h1 | ⟨hlast, hcore⟩
    · left
      rw [claimedNameOk_eq]
      simp [h1, hlen']
    · right
      refine ⟨hlast, ?_, hlen'⟩
      rw [claimedNameOk_eq]
      simp only [Bool.and_eq_true, decide_eq_true_eq]
      exact ⟨hcore, le_trans hdl hlen'⟩
  · intro h
    rcases h with h | ⟨hlast, hcore, hlen⟩
    · rw [claimedNameOk_eq, Bool.and_eq_true] at h
      obtain ⟨hm, hlen⟩ := h
      simp only [validate_package_name, reFullMatchDollar, Bool.and_eq_true, Bool.or_eq_true]
      exact ⟨Or.inl hm, hlen⟩
    · rw [claimedNameOk_eq, Bool.and_eq_true] at hcore
      obtain ⟨hm, -⟩ := hcore
      simp only [validate_package_name, reFullMatchDollar, Bool.and_eq_true, Bool.or_eq_true,
        decide_eq_true_eq]
      exact ⟨Or.inr ⟨hlast, hm⟩, hlen⟩

/-- C7 (amended, witness): a name containing a space is rejected. -/
theorem c7_amended_witness : validate_package_name "a b" = false :=
  c7_amended_validation_characterisation.2.2.2.2.2.2.2 "a b" (by decide)

set_option maxRecDepth 8192 in
/-- C10 (counterexample): the claim's universal part fails at length 255 —
the name of 255 `'a'`s is otherwise valid and of length at most 255, yet
appending the trailing newline pushes the total length to 256 and the
length cap rejects it. -/
theorem c10_counterexample_length_255 :
    validate_package_name (String.mk (List.replicate 255 'a')) = true ∧
    (String.mk (List.replicate 255 'a')).length = 255 ∧
    validate_package_name (String.mk (List.replicate 255 'a' ++ ['\n'])) = false := by
  refine ⟨?_, ?_, ?_⟩ <;> decide

/-- C10 (amended): validation does accept inputs containing whitespace:
any name matching the pattern core with length at most 254 is still
accepted after appending a single trailing newline (for example
`"firefox\n"`), because the anchored `$` also matches just before a final
newline. -/
theorem c10_amended_trailing_newline_accepted :
    validate_package_name "firefox\n" = true ∧
    (∀ l : List Char, matchCore l = true → l.length ≤ 254 →
      validate_package_name (String.mk (l ++ ['\n'])) = true) ∧
    (∃ s : String, validate_package_name s = true ∧ ∃ c ∈ s.data, isPySpace c = true) := by
  refine ⟨by decide, ?_, ⟨"firefox\n", by decide, '\n', by decide, by decide⟩⟩
  intro l hm hlen
  have hlen2 : (String.mk (l ++ ['\n'])).length = l.length + 1 := by
    rw [string_mk_length, List.length_append]
    rfl
  simp [validate_package_name, reFullMatchDollar, List.getLast?_concat,
    List.dropLast_concat, hm, hlen2]
  omega

/-- C10 (amended, witness): an accepted whitespace-containing input built by
the general trailing-newline rule. -/
theorem c10_amended_witness :
    validate_package_name (String.mk ("vim".data ++ ['\n'])) = true :=
  c10_amended_trailing_newline_accepted.2.1 "vim".data (by decide) (by decide)

/-! ## Resolver lemmas -/

theorem lcp_le_left : ∀ (a b : List Char), lcp a b ≤ a.length := by
  intro a
  induction a with
  | nil => intro b; cases b <;> simp [lcp]
  | cons x xs ih =>
    intro b
    cases b with
    | nil => simp [lcp]
    | cons y ys =>
      simp only [lcp, List.length_cons]
      split
      · exact Nat.succ_le_succ (ih ys)
      · exact Nat.zero_le _

theorem foldl_invariant {α β : Type} (f : β → α → β) (P : β → Prop)
    (hstep : ∀ b a, P b → P (f b a)) :
    ∀ (l : List α) (b : β), P b → P (l.foldl f b) := by
  intro l
  induction l with
  | nil => intro b hb; simpa using hb
  | cons x xs ih => intro b hb; simpa using ih (f b x) (hstep b x hb)

/-- The length field of the best block is the common-prefix length at the
block's start pair (or the initial 0 when no pair improved on it). -/
theorem findLongestMatch_spec (a b : List Char) :
    (findLongestMatch a b).2.2 = 0 ∨
      (findLongestMatch a b).2.2 =
        lcp (a.drop (findLongestMatch a b).1) (b.drop (findLongestMatch a b).2.1) := by
  unfold findLongestMatch
  exact foldl_invariant _
    (fun r : Nat × Nat × Nat => r.2.2 = 0 ∨ r.2.2 = lcp (a.drop r.1) (b.drop r.2.1))
    (by
      intro best p hb
      show (fun r : Nat × Nat × Nat => r.2.2 = 0 ∨ r.2.2 = lcp (a.drop r.1) (b.drop r.2.1))
        (if best.2.2 < lcp (a.drop p.1) (b.drop p.2) then
          (p.1, p.2, lcp (a.drop p.1) (b.drop p.2)) else best)
      split
      · exact Or.inr rfl
      · exact hb)
    _ _ (Or.inl rfl)

theorem findLongestMatch_pos {a b : List Char}
    (h : (findLongestMatch a b).2.2 ≠ 0) : (findLongestMatch a b).1 < a.length := by
  rcases findLongestMatch_spec a b with h0 | hk
  · exact absurd h0 h
  · by_contra hge
    push_neg at hge
    have hnil : a.drop (findLongestMatch a b).1 = [] := List.drop_eq_nil_iff.mpr hge
    rw [hnil] at hk
    have hzero : lcp [] (b.drop (findLongestMatch a b).2.1) = 0 := by
      cases b.drop (findLongestMatch a b).2.1 <;> rfl
    exact h (hk.trans hzero)

/-- The fuel of `rMatchesAux` is immaterial as soon as it reaches the length
of the first sequence: the first sequence strictly shrinks at each recursive
call, so the recursion depth never exceeds it. -/
theorem rMatchesAux_fuel_irrelevant :
    ∀ (f g : Nat) (a b : List Char), a.length ≤ f → a.length ≤ g →
      rMatchesAux f a b = rMatchesAux g a b := by
  intro f
  induction f with
  | zero =>
    intro g a b hf _
    have ha : a = [] := List.length_eq_zero.mp (Nat.le_zero.mp hf)
    subst ha
    have hk : (findLongestMatch [] b).2.2 = 0 := by
      by_contra hne
      exact absurd (findLongestMatch_pos hne) (by simp)
    cases g with
    | zero => rfl
    | succ g' => simp [rMatchesAux, hk]
  | succ f' ih =>
    intro g a b hf hg
    cases g with
    | zero =>
      have ha : a = [] := List.length_eq_zero.mp (Nat.le_zero.mp hg)
      subst ha
      have hk : (findLongestMatch [] b).2.2 = 0 := by
        by_contra hne
        exact absurd (findLongestMatch_pos hne) (by simp)
      simp [rMatchesAux, hk]
    | succ g' =>
      simp only [rMatchesAux]
      by_cases hk : (findLongestMatch a b).2.2 = 0
      · simp [hk]
      · have hi : (findLongestMatch a b).1 < a.length := findLongestMatch_pos hk
        have hkpos : 1 ≤ (findLongestMatch a b).2.2 := Nat.pos_of_ne_zero hk
        have h1 : (a.take (findLongestMatch a b).1).length ≤ f' := by
          rw [List.length_take]; omega
        have h1' : (a.take (findLongestMatch a b).1).length ≤ g' := by
          rw [List.length_take]; omega
        have h2 : (a.drop ((findLongestMatch a b).1 + (findLongestMatch a b).2.2)).length ≤ f' := by
          rw [List.length_drop]; omega
        have h2' : (a.drop ((findLongestMatch a b).1 + (findLongestMatch a b).2.2)).length ≤ g' := by
          rw [List.length_drop]; omega
        rw [if_neg hk, if_neg hk, ih _ _ _ h1 h1', ih _ _ _ h2 h2']

theorem pairGt_iff {u v : ℚ × String} :
    pairGt u v = true ↔ (v.1 < u.1 ∨ (v.1 = u.1 ∧ v.2 < u.2)) := by
  simp [pairGt]

theorem pairGt_eq_false_iff {u v : ℚ × String} :
    pairGt u v = false ↔ ¬(v.1 < u.1 ∨ (v.1 = u.1 ∧ v.2 < u.2)) := by
  rw [← pairGt_iff]
  cases pairGt u v <;> simp

theorem pairGt_asymm {u v : ℚ × String} (h : pairGt u v = true) : pairGt v u = false := by
  rw [pairGt_iff] at h
  rw [pairGt_eq_false_iff]
  rintro (h2 | ⟨he2, hl2⟩)
  · rcases h with h1 | ⟨he1, -⟩
    · exact (lt_asymm h1) h2
    · rw [he1] at h2; exact lt_irrefl _ h2
  · rcases h with h1 | ⟨-, hl1⟩
    · rw [he2] at h1; exact lt_irrefl _ h1
    · exact (lt_asymm hl1) hl2

theorem pairGt_false_trans {u v w : ℚ × String}
    (h1 : pairGt v u = false) (h2 : pairGt w v = false) : pairGt w u = false := by
  rw [pairGt_eq_false_iff] at h1 h2 ⊢
  push_neg at h1 h2 ⊢
  obtain ⟨ha1, hb1⟩ := h1
  obtain ⟨ha2, hb2⟩ := h2
  refine ⟨le_trans ha2 ha1, ?_⟩
  intro he
  have huv : u.1 = v.1 := le_antisymm (by rw [he]; exact ha2) ha1
  have hvw : v.1 = w.1 := huv.symm.trans he
  exact le_trans (hb2 hvw) (hb1 huv)

theorem pairGt_total_eq {u v : ℚ × String}
    (h1 : pairGt u v = false) (h2 : pairGt v u = false) : u = v := by
  rw [pairGt_eq_false_iff] at h1 h2
  push_neg at h1 h2
  obtain ⟨ha1, hb1⟩ := h1
  obtain ⟨ha2, hb2⟩ := h2
  have he : u.1 = v.1 := le_antisymm ha1 ha2
  have he2 : u.2 = v.2 := le_antisymm (hb1 he.symm) (hb2 he)
  exact Prod.ext he he2

theorem mem_insertDesc {x y : ℚ × String} :
    ∀ {l : List (ℚ × String)}, y ∈ insertDesc x l ↔ y = x ∨ y ∈ l := by
  intro l
  induction l with
  | nil => simp [insertDesc]
  | cons z zs ih =>
    simp only [insertDesc]
    split
    · simp [List.mem_cons]
    · simp only [List.mem_cons, ih]
      tauto

theorem perm_insertDesc (x : ℚ × String) : ∀ (l : List (ℚ × String)),
    insertDesc x l ~ x :: l := by
  intro l
  induction l with
  | nil => simp [insertDesc]
  | cons z zs ih =>
    simp only [insertDesc]
    split
    · exact List.Perm.refl _
    · exact (List.Perm.cons z ih).trans (List.Perm.swap x z zs)

theorem pairwise_insertDesc {x : ℚ × String} :
    ∀ {l : List (ℚ × String)},
      l.Pairwise (fun u v => pairGt v u = false) →
      (insertDesc x l).Pairwise (fun u v => pairGt v u = false) := by
  intro l
  induction l with
  | nil => intro _; simp [insertDesc]
  | cons z zs ih =>
    intro h
    obtain ⟨hz, hzs⟩ := List.pairwise_cons.mp h
    simp only [insertDesc]
    split
    · rename_i hxz
      refine List.pairwise_cons.mpr ⟨?_, h⟩
      intro u hu
      rcases List.mem_cons.mp hu with rfl | hu'
      · exact pairGt_asymm hxz
      · exact pairGt_false_trans (pairGt_asymm hxz) (hz u hu')
    · rename_i hxz
      have hxz' : pairGt x z = false := by
        cases hb : pairGt x z
        · rfl
        · exact absurd hb hxz
      refine List.pairwise_cons.mpr ⟨?_, ih hzs⟩
      intro u hu
      rcases mem_insertDesc.mp hu with rfl | hu'
      · exact hxz'
      · exact hz u hu'

theorem perm_sortDesc (l : List (ℚ × String)) : sortDesc l ~ l := by
  have key : ∀ (m acc : List (ℚ × String)),
      (m.foldl (fun acc x => insertDesc x acc) acc) ~ m ++ acc := by
    intro m
    induction m with
    | nil => intro acc; simp
    | cons x xs ih =>
      intro acc
      simp only [List.foldl_cons]
      refine (ih (insertDesc x acc)).trans ?_
      have h2 : xs ++ insertDesc x acc ~ xs ++ (x :: acc) :=
        List.Perm.append_left xs (perm_insertDesc x acc)
      exact h2.trans List.perm_middle
  simpa using key l []

theorem pairwise_sortDesc (l : List (ℚ × String)) :
    (sortDesc l).Pairwise (fun u v => pairGt v u = false) := by
  unfold sortDesc
  exact foldl_invariant _ (fun acc => acc.Pairwise fun u v => pairGt v u = false)
    (fun acc x hacc => pairwise_insertDesc hacc) l [] (by simp)

theorem mem_dedupAux {y : String} :
    ∀ (l seen : List String), y ∈ dedupAux seen l ↔ (y ∈ l ∧ y ∉ seen) := by
  intro l
  induction l with
  | nil => intro seen; simp [dedupAux]
  | cons x xs ih =>
    intro seen
    simp only [dedupAux]
    split
    · rename_i hx
      rw [ih seen]
      simp only [List.mem_cons]
      constructor
      · rintro ⟨h1, h2⟩; exact ⟨Or.inr h1, h2⟩
      · rintro ⟨h1 | h1, h2⟩
        · subst h1; exact absurd hx h2
        · exact ⟨h1, h2⟩
    · rename_i hx
      simp only [List.mem_cons, ih (x :: seen)]
      constructor
      · rintro (rfl | ⟨h1, h2⟩)
        · exact ⟨Or.inl rfl, hx⟩
        · exact ⟨Or.inr h1, fun hy => h2 (Or.inr hy)⟩
      · rintro ⟨rfl | h1, h2⟩
        · exact Or.inl rfl
        · by_cases hxy : y = x
          · exact Or.inl hxy
          · exact Or.inr ⟨h1, fun hy => hy.elim hxy h2⟩

theorem nodup_dedupAux : ∀ (l seen : List String), (dedupAux seen l).Nodup := by
  intro l
  induction l with
  | nil => intro seen; simp [dedupAux]
  | cons x xs ih =>
    intro seen
    simp only [dedupAux]
    split
    · exact ih seen
    · refine List.nodup_cons.mpr ⟨?_, ih (x :: seen)⟩
      intro hx
      obtain ⟨-, h2⟩ := (mem_dedupAux xs (x :: seen)).mp hx
      exact h2 (List.mem_cons_self x seen)

theorem sublist_dedupAux : ∀ (l seen : List String), dedupAux seen l <+ l := by
  intro l
  induction l with
  | nil => intro seen; simp [dedupAux]
  | cons x xs ih =>
    intro seen
    simp only [dedupAux]
    split
    · exact (ih seen).cons x
    · exact (ih (x :: seen)).cons₂ x

/-! ## C4 / C5: the fuzzy resolver -/

/-- C4 (counterexample): with query `"cx"` and candidates `["ax", "bx"]`
(already duplicate-free, in first-seen order), both candidates score
exactly 1/2, yet the resolver returns them in the order `["bx", "ax"]` —
the reverse of the first-seen order: equal-score ties are broken by the
Python tuple comparison on `(score, name)`, not by candidate order. -/
theorem c4_counterexample_tie_order :
    resolve "cx" ["ax", "bx"] 10 (3/10) = ["bx", "ax"] ∧
    similarity "ax".data "cx".data = similarity "bx".data "cx".data := by
  have hma : rMatches "ax".data "cx".data = 1 := by decide
  have hmb : rMatches "bx".data "cx".data = 1 := by decide
  have hla : "ax".data.length = 2 := by decide
  have hlb : "bx".data.length = 2 := by decide
  have hlc : "cx".data.length = 2 := by decide
  have hax : similarity "ax".data "cx".data = 1/2 := by
    simp only [similarity, hma, hla, hlc]
    norm_num
  have hbx : similarity "bx".data "cx".data = 1/2 := by
    simp only [similarity, hmb, hlb, hlc]
    norm_num
  refine ⟨?_, hax.trans hbx.symm⟩
  have hd : dedupFirstSeen ["ax", "bx"] = ["ax", "bx"] := by decide
  have hfa : (decide ((3:ℚ)/10 ≤ similarity "ax".data "cx".data)) = true := by
    rw [hax]; norm_num
  have hfb : (decide ((3:ℚ)/10 ≤ similarity "bx".data "cx".data)) = true := by
    rw [hbx]; norm_num
  have hlt : ("ax" : String) < "bx" := by
    rw [String.lt_iff_toList_lt]; decide
  have hgt : pairGt ((1:ℚ)/2, "bx") ((1:ℚ)/2, "ax") = true :=
    pairGt_iff.mpr (Or.inr ⟨rfl, hlt⟩)
  have hsort : sortDesc [((1:ℚ)/2, "ax"), ((1:ℚ)/2, "bx")] =
      [((1:ℚ)/2, "bx"), ((1:ℚ)/2, "ax")] := by
    simp only [sortDesc, List.foldl_cons, List.foldl_nil, insertDesc]
    rw [if_pos hgt]
  have h1 : resolve "cx" ["ax", "bx"] 10 (3/10) =
      ((sortDesc (((dedupFirstSeen ["ax", "bx"]).filter
          (fun x => decide ((3:ℚ)/10 ≤ similarity x.data "cx".data))).map
          (fun x => (similarity x.data "cx".data, x)))).take 10).map Prod.snd := rfl
  rw [h1, hd, List.filter_cons]
  simp only []
  rw [if_pos hfa, List.filter_cons]
  simp only []
  rw [if_pos hfb, List.filter_nil, List.map_cons, List.map_cons, List.map_nil,
    hax, hbx, hsort]
  rfl

/-- C4 (amended): the resolver does first de-duplicate the candidate names
preserving first-seen order (the de-duplicated list is a duplicate-free
sublist of the candidates containing every candidate); but the returned
order among candidates with equal similarity scores is descending
lexicographic (code-point) order of the names — the tuple order of the
selection step — not the original candidate order. -/
theorem c4_amended_dedup_and_tie_order (query : String) (candidates : List String)
    (n : Nat) (cutoff : ℚ) :
    (dedupFirstSeen candidates).Sublist candidates ∧
    (dedupFirstSeen candidates).Nodup ∧
    (∀ x, x ∈ dedupFirstSeen candidates ↔ x ∈ candidates) ∧
    (resolve query candidates n cutoff).Pairwise
      (fun a b => similarity b.data query.data < similarity a.data query.data ∨
        (similarity b.data query.data = similarity a.data query.data ∧ b < a)) := by
  refine ⟨sublist_dedupAux candidates [], nodup_dedupAux candidates [], ?_, ?_⟩
  · intro x
    rw [dedupFirstSeen, mem_dedupAux]
    simp
  · have hres : resolve query candidates n cutoff =
        ((sortDesc (((dedupFirstSeen candidates).filter
            (fun x => decide (cutoff ≤ similarity x.data query.data))).map
            (fun x => (similarity x.data query.data, x)))).take n).map Prod.snd := rfl
    rw [hres]
    set pairsL := ((dedupFirstSeen candidates).filter
        (fun x => decide (cutoff ≤ similarity x.data query.data))).map
        (fun x => (similarity x.data query.data, x)) with hpairs
    have hform : ∀ p ∈ pairsL, p.1 = similarity p.2.data query.data := by
      intro p hp
      obtain ⟨y, -, hyp⟩ := List.mem_map.mp hp
      rw [← hyp]
    have hnd : pairsL.Nodup := by
      refine List.Nodup.map ?_ (List.Nodup.filter _ (nodup_dedupAux candidates []))
      intro a b hab
      exact congrArg Prod.snd hab
    have hndS : (sortDesc pairsL).Nodup := ((perm_sortDesc pairsL).nodup_iff).mpr hnd
    have hstrict : (sortDesc pairsL).Pairwise (fun u v => pairGt u v = true) := by
      refine ((pairwise_sortDesc pairsL).and hndS).imp ?_
      intro u v huv
      obtain ⟨hge, hne⟩ := huv
      cases h : pairGt u v
      · exact absurd (pairGt_total_eq h hge) hne
      · rfl
    rw [List.pairwise_map]
    refine List.Pairwise.imp_of_mem ?_
      (List.Pairwise.sublist (List.take_sublist n _) hstrict)
    intro p q hp hq hpq
    have hp' : p ∈ pairsL := (perm_sortDesc pairsL).mem_iff.mp (List.mem_of_mem_take hp)
    have hq' : q ∈ pairsL := (perm_sortDesc pairsL).mem_iff.mp (List.mem_of_mem_take hq)
    have hp1 := hform p hp'
    have hq1 := hform q hq'
    rcases pairGt_iff.mp hpq with h1 | ⟨h1, h2⟩
    · left; rw [← hp1, ← hq1]; exact h1
    · right; exact ⟨by rw [← hp1, ← hq1]; exact h1, h2⟩

/-- C5: for every query, candidate list, result bound and cutoff, the
resolver returns at most `n` names, each returned name scores at least the
cutoff against the query, the returned names are ordered by non-increasing
similarity, and if no candidate reaches the cutoff the result is the empty
list (an ordinary value, not an error). -/
theorem c5_resolver_contract (query : String) (candidates : List String)
    (n : Nat) (cutoff : ℚ) :
    (resolve query candidates n cutoff).length ≤ n ∧
    (∀ x ∈ resolve query candidates n cutoff, cutoff ≤ similarity x.data query.data) ∧
    (resolve query candidates n cutoff).Pairwise
      (fun a b => similarity b.data query.data ≤ similarity a.data query.data) ∧
    ((∀ x ∈ candidates, similarity x.data query.data < cutoff) →
      resolve query candidates n cutoff = []) := by
  have hres : resolve query candidates n cutoff =
      ((sortDesc (((dedupFirstSeen candidates).filter
          (fun x => decide (cutoff ≤ similarity x.data query.data))).map
          (fun x => (similarity x.data query.data, x)))).take n).map Prod.snd := rfl
  set pairsL := ((dedupFirstSeen candidates).filter
      (fun x => decide (cutoff ≤ similarity x.data query.data))).map
      (fun x => (similarity x.data query.data, x)) with hpairs
  refine ⟨?_, ?_, ?_, ?_⟩
  · rw [hres]
    simp only [List.length_map, List.length_take]
    exact Nat.min_le_left _ _
  · intro x hx
    rw [hres] at hx
    obtain ⟨p, hp, hpx⟩ := List.mem_map.mp hx
    have hp' : p ∈ pairsL := (perm_sortDesc pairsL).mem_iff.mp (List.mem_of_mem_take hp)
    obtain ⟨y, hy, hyp⟩ := List.mem_map.mp hp'
    obtain ⟨-, hcut⟩ := List.mem_filter.mp hy
    have hy2 : p.2 = y := by rw [← hyp]
    rw [← hpx, hy2]
    simpa using hcut
  · have hform : ∀ p ∈ pairsL, p.1 = similarity p.2.data query.data := by
      intro p hp
      obtain ⟨y, -, hyp⟩ := List.mem_map.mp hp
      rw [← hyp]
    rw [hres, List.pairwise_map]
    refine List.Pairwise.imp_of_mem ?_
      (List.Pairwise.sublist (List.take_sublist n _) (pairwise_sortDesc pairsL))
    intro p q hp hq hpq
    have hp' : p ∈ pairsL := (perm_sortDesc pairsL).mem_iff.mp (List.mem_of_mem_take hp)
    have hq' : q ∈ pairsL := (perm_sortDesc pairsL).mem_iff.mp (List.mem_of_mem_take hq)
    rw [← hform p hp', ← hform q hq']
    rw [pairGt_eq_false_iff] at hpq
    push_neg at hpq
    exact hpq.1
  · intro hall
    have hfil : (dedupFirstSeen candidates).filter
        (fun x => decide (cutoff ≤ similarity x.data query.data)) = [] := by
      rw [List.filter_eq_nil_iff]
      intro a ha
      have hmem : a ∈ candidates := (sublist_dedupAux candidates []).subset ha
      simp only [decide_eq_true_eq]
      exact not_le.mpr (hall a hmem)
    rw [hres, hpairs, hfil]
    simp [sortDesc]

/-- C5 (witness): a query that no candidate matches at the cutoff yields the
empty result. -/
theorem c5_witness_empty_below_cutoff : resolve "ab" ["zq"] 10 (3/10) = [] := by
  refine (c5_resolver_contract "ab" ["zq"] 10 (3/10)).2.2.2 ?_
  intro x hx
  rcases List.mem_singleton.mp hx with rfl
  have h1 : rMatches "zq".data "ab".data = 0 := by decide
  have h2 : "zq".data.length = 2 := by decide
  have h3 : "ab".data.length = 2 := by decide
  simp only [similarity, h1, h2, h3]
  norm_num

end AurHelper
